import Mathlib

/-!
Verification development for the Regressionizer quantile-regression engine.

The repository ships the engine as a Python class exercised by notebooks; the
numeric core (basis combination, the pinball-loss linear program, the fit
registry and the derived-analytics layer) is modelled here over exact
rationals, as stated in the design specification.  Machine floats are replaced
by `ℚ`; observations are pairs, datasets are ordered lists of pairs, bases are
ordered lists of scalar functions, and the pipeline context carries the
dataset, the fit registry and the most recently produced value.
-/

namespace Regressionizer

/-- Modelled from the spec: the error taxonomy of section 7 (the class
definitions themselves are not part of the checked sources, only their
names and triggering conditions). -/
inductive RegError where
  | invalidProbability
  | noSuchFit
  | solverError
  | invalidBasis
  | divisionByZero
  deriving DecidableEq

/-- Modelled from the spec: the "current value" slot of the pipeline context.
Each pipeline operation stores its own output here: point lists, per-probability
groupings, per-probability fractions, conditional CDF callables, or per-τ fit
results. -/
inductive PipeValue where
  | noValue
  | pts (ps : List (ℚ × ℚ))
  | groups (m : List (ℚ × List (ℚ × ℚ)))
  | fracs (m : List (ℚ × ℚ))
  | cdfs (m : List (ℚ × (ℚ → ℚ)))
  | fitResults (m : List (ℚ × Except RegError (List ℚ)))

/-- Modelled from the spec: the pipeline context (section 3) holding the
dataset, the fit registry (probability ↦ fitted callable, kept in ascending
probability order by the fitting operations) and the current value. -/
structure Context where
  data : List (ℚ × ℚ)
  registry : List (ℚ × (ℚ → ℚ))
  value : PipeValue

/-- Evaluation of a basis linear combination Σ c_j · φ_j(x). -/
def predict (c : List ℚ) (basis : List (ℚ → ℚ)) (x : ℚ) : ℚ :=
  (List.zipWith (fun cj f => cj * f x) c basis).sum

/-- The pinball (asymmetric absolute) loss ρ_τ of section 4.2:
ρ_τ(u) = τ·u for u ≥ 0 and (τ−1)·u for u < 0. -/
def pinball (τ u : ℚ) : ℚ :=
  if 0 ≤ u then τ * u else (τ - 1) * u

/-- Per-point residuals y_i − f(x_i) of a fitted function on the dataset. -/
def residualsOf (data : List (ℚ × ℚ)) (f : ℚ → ℚ) : List ℚ :=
  data.map (fun p => p.2 - f p.1)

/-- The quantile-regression objective Σ_i ρ_τ(y_i − Σ_j c_j φ_j(x_i)). -/
def pinballLoss (τ : ℚ) (data : List (ℚ × ℚ)) (basis : List (ℚ → ℚ))
    (c : List ℚ) : ℚ :=
  ((residualsOf data (predict c basis)).map (fun r => pinball τ r)).sum

/-- Modelled from the spec: the LP objective of section 4.2,
τ·Σ u_i⁺ + (1−τ)·Σ u_i⁻ over the two non-negative slack vectors. -/
def lpObjective (τ : ℚ) (up um : List ℚ) : ℚ :=
  τ * up.sum + (1 - τ) * um.sum

/-- Modelled from the spec: feasibility of the LP restatement of section 4.2.
The slack lists run in step with the dataset; each observation contributes the
sign constraints u_i⁺ ≥ 0, u_i⁻ ≥ 0 and one equality constraint
Σ_j c_j φ_j(x_i) + u_i⁺ − u_i⁻ = y_i. -/
def lpFeasibleAux (basis : List (ℚ → ℚ)) (c : List ℚ) :
    List (ℚ × ℚ) → List ℚ → List ℚ → Prop
  | [], [], [] => True
  | p :: ps, a :: pas, b :: pbs =>
      0 ≤ a ∧ 0 ≤ b ∧ predict c basis p.1 + a - b = p.2 ∧
        lpFeasibleAux basis c ps pas pbs
  | _, _, _ => False

/-- Modelled from the spec: a full LP feasible point: d = `basis.length`
unrestricted coefficient variables plus the slack structure. -/
def lpFeasible (data : List (ℚ × ℚ)) (basis : List (ℚ → ℚ))
    (c up um : List ℚ) : Prop :=
  c.length = basis.length ∧ lpFeasibleAux basis c data up um

/-- The list of equality constraints of the LP, one per observation. -/
def lpEqualityConstraints (data : List (ℚ × ℚ)) (basis : List (ℚ → ℚ))
    (c up um : List ℚ) : List Prop :=
  (data.zip (up.zip um)).map
    (fun q => predict c basis q.1.1 + q.2.1 - q.2.2 = q.1.2)

/-- Positive part, used for the canonical residual split u = u⁺ − u⁻. -/
def posPart (u : ℚ) : ℚ := max u 0

/-- Negative part, used for the canonical residual split u = u⁺ − u⁻. -/
def negPart (u : ℚ) : ℚ := max (-u) 0

/-- Modelled from the spec: the single-τ solver contract of section 4.2.  The
LP search itself is abstracted as a `solver` argument; the probability check is
the contract's edge case: τ outside (0,1) fails with `InvalidProbabilityError`
before any solving happens. -/
def qrSolve (solver : List (ℚ × ℚ) → List (ℚ → ℚ) → ℚ → List ℚ)
    (data : List (ℚ × ℚ)) (funcs : List (ℚ → ℚ)) (τ : ℚ) :
    Except RegError (List ℚ) :=
  if 0 < τ ∧ τ < 1 then .ok (solver data funcs τ) else .error .invalidProbability

/-- Modelled from the spec: the fitting pipeline operation.  Each requested
probability is solved independently; per-τ outcomes are reported as a
result/error mapping (section 7), successful fits are recorded in the registry
as evaluable functions, and the current value becomes the op's own output. -/
def quantile_regression_fit
    (solver : List (ℚ × ℚ) → List (ℚ → ℚ) → ℚ → List ℚ)
    (ctx : Context) (funcs : List (ℚ → ℚ)) (probs : List ℚ) : Context :=
  let results := probs.map (fun τ => (τ, qrSolve solver ctx.data funcs τ))
  let fits := results.filterMap (fun tr =>
    match tr.2 with
    | .ok c => some (tr.1, fun x => predict c funcs x)
    | .error _ => none)
  { ctx with registry := ctx.registry ++ fits, value := .fitResults results }

/-- The fitted function of the first (lowest-probability) registry entry;
a harmless default is returned on an empty registry, but every operation
below guards the registry for emptiness before using it. -/
def headFit (ctx : Context) : ℚ → ℚ :=
  (ctx.registry.headD (0, fun _ => 0)).2

/-- The fitted function of the last (highest-probability) registry entry. -/
def lastFit (ctx : Context) : ℚ → ℚ :=
  (ctx.registry.getLastD (0, fun _ => 0)).2

/-- Modelled from the spec: registry lookup (section 4.4); a missing key fails
with `NoSuchFitError` rather than returning a default. -/
def lookupFit (reg : List (ℚ × (ℚ → ℚ))) (τ : ℚ) :
    Except RegError (ℚ → ℚ) :=
  match reg.find? (fun e => decide (e.1 = τ)) with
  | some e => .ok e.2
  | none => .error .noSuchFit

/-- Per-point fitting error: absolute y − f(x) or relative (y − f(x))/f(x). -/
def errAt (relative : Bool) (f : ℚ → ℚ) (p : ℚ × ℚ) : ℚ :=
  if relative then (p.2 - f p.1) / f p.1 else p.2 - f p.1

/-- The output of `errors`: for each fitted probability, the full per-point
sequence of (x_i, e_i) pairs. -/
def errorsValue (ctx : Context) (relative : Bool) : PipeValue :=
  .groups (ctx.registry.map (fun tf =>
    (tf.1, ctx.data.map (fun p => (p.1, errAt relative tf.2 p)))))

/-- Modelled from the spec: the `errors` derived-analytics operation
(section 4.5), keyed by τ with one (x, error) entry per observation. -/
def errors (ctx : Context) (relative : Bool) : Except RegError Context :=
  match ctx.registry with
  | [] => .error .noSuchFit
  | _ :: _ => .ok { ctx with value := errorsValue ctx relative }

/-- Band-membership outlier selection: the points strictly below the low curve
or strictly above the high curve, kept with their original coordinates. -/
def bandOutliers (data : List (ℚ × ℚ)) (flo fhi : ℚ → ℚ) : List (ℚ × ℚ) :=
  data.filter (fun p => decide (p.2 < flo p.1) || decide (fhi p.1 < p.2))

/-- The output of `outliers`: band membership against the lowest- and
highest-probability fitted curves. -/
def outliersValue (ctx : Context) : PipeValue :=
  .pts (bandOutliers ctx.data (headFit ctx) (lastFit ctx))

/-- Modelled from the spec: band-based outlier detection (section 4.5),
the primary contextual-outlier method. -/
def outliers (ctx : Context) : Except RegError Context :=
  match ctx.registry with
  | [] => .error .noSuchFit
  | _ :: _ => .ok { ctx with value := outliersValue ctx }

/-- Points whose residual against the designated fit lies outside [lo, hi],
kept with their original coordinates. -/
def residualOutliers (data : List (ℚ × ℚ)) (f : ℚ → ℚ) (lo hi : ℚ) :
    List (ℚ × ℚ) :=
  data.filter (fun p => decide (p.2 - f p.1 < lo) || decide (hi < p.2 - f p.1))

/-- The output of `find_anomalies_by_residuals` for a given outlier-identifier
strategy applied to the residual distribution of the designated fit. -/
def anomaliesValue (ctx : Context) (outlier_identifier : List ℚ → ℚ × ℚ) :
    PipeValue :=
  .pts (residualOutliers ctx.data (headFit ctx)
    (outlier_identifier (residualsOf ctx.data (headFit ctx))).1
    (outlier_identifier (residualsOf ctx.data (headFit ctx))).2)

/-- Modelled from the spec: residual-based outlier detection (section 4.5),
parameterized by a swappable outlier-identifier strategy that maps the residual
distribution to a pair of fences. -/
def find_anomalies_by_residuals (ctx : Context)
    (outlier_identifier : List ℚ → ℚ × ℚ) : Except RegError Context :=
  match ctx.registry with
  | [] => .error .noSuchFit
  | _ :: _ => .ok { ctx with value := anomaliesValue ctx outlier_identifier }

/-- Ascending sort used for quartiles and for the quantile-crossing repair. -/
def sortedAsc (rs : List ℚ) : List ℚ :=
  List.insertionSort (fun a b => a ≤ b) rs

/-- Lower quartile of a sample, by rank in the ascending sort. -/
def q1Of (rs : List ℚ) : ℚ := (sortedAsc rs).getD (rs.length / 4) 0

/-- Upper quartile of a sample, by rank in the ascending sort. -/
def q3Of (rs : List ℚ) : ℚ := (sortedAsc rs).getD (3 * rs.length / 4) 0

/-- Interquartile range. -/
def iqrOf (rs : List ℚ) : ℚ := q3Of rs - q1Of rs

/-- Modelled from the spec: the quartile-based (Tukey) outlier-identifier
strategy producing the fences [Q1 − k·IQR, Q3 + k·IQR]. -/
def quartile_identifier_parameters (k : ℚ) (rs : List ℚ) : ℚ × ℚ :=
  (q1Of rs - k * iqrOf rs, q3Of rs + k * iqrOf rs)

/-- Points whose (absolute or relative) vertical distance to the fitted curve
is within the threshold. -/
def pathPoints (data : List (ℚ × ℚ)) (f : ℚ → ℚ) (threshold : ℚ)
    (relative : Bool) : List (ℚ × ℚ) :=
  data.filter (fun p => decide (|errAt relative f p| ≤ threshold))

/-- The output of `pick_path_points`: a mapping from each fitted probability to
the points tracking that quantile's curve. -/
def pathPointsValue (ctx : Context) (threshold : ℚ) (relative : Bool) :
    PipeValue :=
  .groups (ctx.registry.map (fun tf =>
    (tf.1, pathPoints ctx.data tf.2 threshold relative)))

/-- Modelled from the spec: path-point picking (section 4.5). -/
def pick_path_points (ctx : Context) (threshold : ℚ) (relative : Bool) :
    Except RegError Context :=
  match ctx.registry with
  | [] => .error .noSuchFit
  | _ :: _ => .ok { ctx with value := pathPointsValue ctx threshold relative }

/-- Number of data points on or below the fitted curve. -/
def separateCount (data : List (ℚ × ℚ)) (f : ℚ → ℚ) : ℕ :=
  data.countP (fun p => decide (p.2 ≤ f p.1))

/-- Cumulative separation fraction: the fraction of points with
y_i ≤ f(x_i). -/
def separateFraction (data : List (ℚ × ℚ)) (f : ℚ → ℚ) : ℚ :=
  (separateCount data f : ℚ) / (data.length : ℚ)

/-- The output of `separate` in cumulative mode: for each fitted probability,
the count (or, with `fractions`, the fraction) of points under the curve. -/
def separateValue (ctx : Context) (fractions : Bool) : PipeValue :=
  .fracs (ctx.registry.map (fun tf =>
    (tf.1, if fractions then separateFraction ctx.data tf.2
           else (separateCount ctx.data tf.2 : ℚ))))

/-- Modelled from the spec: the `separate` operation as exercised in the
notebook with `cumulative=True, fractions=True` (the cumulative mode is the one
documented; the flag is kept for interface fidelity). -/
def separate (ctx : Context) (cumulative fractions : Bool) :
    Except RegError Context :=
  match ctx.registry with
  | [] => .error .noSuchFit
  | _ :: _ =>
      let _ := cumulative
      .ok { ctx with value := separateValue ctx fractions }

/-- Piecewise-linear interpolation through the tail of the CDF sample points,
entered once the query lies strictly to the right of the point (v₁, t₁). -/
def interpAfter (v₁ t₁ : ℚ) : List (ℚ × ℚ) → ℚ → ℚ
  | [], _ => t₁
  | (v₂, t₂) :: rest, y =>
      if y ≤ v₂ then
        if v₁ = v₂ then t₂
        else t₁ + (t₂ - t₁) * (y - v₁) / (v₂ - v₁)
      else interpAfter v₂ t₂ rest y

/-- Modelled from the spec: the monotone piecewise-linear CDF reconstruction of
section 4.5, constant beyond the sampled range. -/
def interpCDF : List (ℚ × ℚ) → ℚ → ℚ
  | [], _ => 0
  | (v, t) :: rest, y => if y ≤ v then t else interpAfter v t rest y

/-- Modelled from the spec: the CDF sample points at a query x₀, with the
deterministic quantile-crossing repair: the evaluated values are sorted
ascending and paired with the original probabilities in ascending order. -/
def cdfPoints (reg : List (ℚ × (ℚ → ℚ))) (x0 : ℚ) : List (ℚ × ℚ) :=
  List.zip (sortedAsc (reg.map (fun tf => tf.2 x0))) (reg.map (fun tf => tf.1))

/-- The output of `conditional_cdf`: a callable CDF keyed by the query x₀. -/
def conditionalCdfValue (ctx : Context) (x0 : ℚ) : PipeValue :=
  .cdfs [(x0, interpCDF (cdfPoints ctx.registry x0))]

/-- Modelled from the spec: conditional CDF reconstruction (section 4.5). -/
def conditional_cdf (ctx : Context) (x0 : ℚ) : Except RegError Context :=
  match ctx.registry with
  | [] => .error .noSuchFit
  | _ :: _ => .ok { ctx with value := conditionalCdfValue ctx x0 }

/-- Quantile-function (inverse-CDF) evaluation at a given x: the same
interpolation machinery as the conditional CDF, run in reverse over the points
(τ_k, f_{τ_k}(x)). -/
def inverseCdfAt (reg : List (ℚ × (ℚ → ℚ))) (x τstar : ℚ) : ℚ :=
  interpCDF (reg.map (fun tf => (tf.1, tf.2 x))) τstar

/-- The output of `simulate`: one synthetic point per supplied draw
(x, τ*), evaluated through the fitted family's inverse CDF at x. -/
def simulateValue (ctx : Context) (draws : List (ℚ × ℚ)) : PipeValue :=
  .pts (draws.map (fun d => (d.1, inverseCdfAt ctx.registry d.1 d.2)))

/-- Modelled from the spec: simulation (section 4.5); the random draws
(x, τ*) are supplied externally so the operation itself is deterministic. -/
def simulate (ctx : Context) (draws : List (ℚ × ℚ)) :
    Except RegError Context :=
  match ctx.registry with
  | [] => .error .noSuchFit
  | _ :: _ => .ok { ctx with value := simulateValue ctx draws }

/-! Concrete instances used to evaluate the development on closed inputs. -/

/-- A trivial stand-in LP search, used to exercise the probability check. -/
def wSolver : List (ℚ × ℚ) → List (ℚ → ℚ) → ℚ → List ℚ := fun _ _ _ => []

/-- The constant-zero fitted function. -/
def wZeroFun : ℚ → ℚ := fun _ => 0

/-- A one-point context with one fitted quantile at probability 1/2. -/
def wCtx : Context := ⟨[(0, 1)], [(1/2, wZeroFun)], .noValue⟩

/-- A context whose registry is still empty (no fit has been recorded). -/
def wEmptyCtx : Context := ⟨[(0, 1)], [], .noValue⟩

/-- The context `wCtx` after the `errors` operation stored its output. -/
def wCtxErr : Context := ⟨wCtx.data, wCtx.registry, errorsValue wCtx false⟩

/-- The smallest magnitude among the nonzero entries of a residual list
(1 when every residual is zero): the safe step size for the separation
argument. -/
def minPosAbs (rs : List ℚ) : ℚ :=
  ((rs.filter (fun r => decide (r ≠ 0))).map (fun r => |r|)).foldr min 1

/-- A one-observation dataset used to evaluate the LP development. -/
def c1Data : List (ℚ × ℚ) := [(0, 1)]

/-- The one-function constant basis used to evaluate the LP development. -/
def c1Basis : List (ℚ → ℚ) := [fun _ => 1]

/-- A two-quantile registry (τ = 1/4 and τ = 3/4, constant curves) used to
evaluate the conditional-CDF reconstruction. -/
def c3Reg : List (ℚ × (ℚ → ℚ)) := [(1/4, fun _ => 1), (3/4, fun _ => 2)]

/-- A context carrying the two-quantile registry `c3Reg`. -/
def c3Ctx : Context := ⟨[(0, 1)], c3Reg, .noValue⟩

/-- A one-observation dataset used to evaluate the separation property. -/
def c2Data : List (ℚ × ℚ) := [(0, 0)]

/-- The one-function constant basis used for the separation property. -/
def c2Basis : List (ℚ → ℚ) := [fun _ => 1]

end Regressionizer

/-! ## Theorems -/

namespace Regressionizer

/-- Claim C4: invoking the quantile-regression fit with a probability τ outside
the open interval (0,1) fails with `InvalidProbabilityError`: the single-τ
solver reports the error, the per-τ result mapping of the pipeline operation
records that error for τ, and no fit is recorded for τ in the registry. -/
theorem qr_invalid_probability_rejected
    (solver : List (ℚ × ℚ) → List (ℚ → ℚ) → ℚ → List ℚ)
    (ctx : Context) (funcs : List (ℚ → ℚ)) (probs : List ℚ) (τ : ℚ)
    (hτ : ¬ (0 < τ ∧ τ < 1)) (hmem : τ ∈ probs)
    (hold : ∀ f, (τ, f) ∉ ctx.registry) :
    qrSolve solver ctx.data funcs τ = .error .invalidProbability ∧
    (τ, Except.error RegError.invalidProbability) ∈
      probs.map (fun τ2 => (τ2, qrSolve solver ctx.data funcs τ2)) ∧
    ∀ f, (τ, f) ∉ (quantile_regression_fit solver ctx funcs probs).registry := by
  have hq : qrSolve solver ctx.data funcs τ = .error .invalidProbability := by
    simp [qrSolve, hτ]
  refine ⟨hq, ?_, ?_⟩
  · have := List.mem_map_of_mem
      (fun τ2 => (τ2, qrSolve solver ctx.data funcs τ2)) hmem
    simpa only [hq] using this
  · intro f hf
    simp only [quantile_regression_fit, List.mem_append] at hf
    rcases hf with hf | hf
    · exact hold f hf
    · rcases List.mem_filterMap.mp hf with ⟨tr, htr, heq⟩
      rcases List.mem_map.mp htr with ⟨τ2, _, rfl⟩
      rcases h2 : qrSolve solver ctx.data funcs τ2 with e | c
      · rw [h2] at heq
        exact Option.noConfusion heq
      · rw [h2] at heq
        have h3 : τ2 = τ := congrArg Prod.fst (Option.some.inj heq)
        rw [h3] at h2
        rw [hq] at h2
        exact Except.noConfusion h2

/-- Claim C4 witness: requesting τ = 2 on a fresh context fails with
`InvalidProbabilityError`. -/
theorem qr_invalid_probability_rejected_witness :
    qrSolve wSolver wEmptyCtx.data [] 2 = .error .invalidProbability :=
  (qr_invalid_probability_rejected wSolver wEmptyCtx [] [2] 2
    (by norm_num) (by simp) (by simp [wEmptyCtx])).1

/-- Claim C6: with exactly two fitted quantiles recorded at probabilities
τ_lo < τ_hi, band-based outlier detection returns precisely the data points
with y < f_lo(x) or y > f_hi(x), as their original (x, y) coordinates. -/
theorem band_outliers_spec (dataL : List (ℚ × ℚ)) (τlo τhi : ℚ)
    (flo fhi : ℚ → ℚ) (v : PipeValue) :
    outliers ⟨dataL, [(τlo, flo), (τhi, fhi)], v⟩ =
      .ok ⟨dataL, [(τlo, flo), (τhi, fhi)], .pts (bandOutliers dataL flo fhi)⟩ ∧
    (∀ p : ℚ × ℚ, p ∈ bandOutliers dataL flo fhi ↔
      p ∈ dataL ∧ (p.2 < flo p.1 ∨ fhi p.1 < p.2)) := by
  constructor
  · rfl
  · intro p
    simp [bandOutliers, List.mem_filter]

/-- Claim C7: looking up a key absent from the fit registry fails with
`NoSuchFitError`, and every derived-analytics operation invoked on a context
whose registry is still empty fails with `NoSuchFitError`. -/
theorem missing_fit_fails (reg : List (ℚ × (ℚ → ℚ))) (τ : ℚ) (ctx : Context)
    (habs : ∀ f, (τ, f) ∉ reg) (hempty : ctx.registry = []) :
    lookupFit reg τ = .error .noSuchFit ∧
    (∀ rel, errors ctx rel = .error .noSuchFit) ∧
    outliers ctx = .error .noSuchFit ∧
    (∀ ident, find_anomalies_by_residuals ctx ident = .error .noSuchFit) ∧
    (∀ th rel, pick_path_points ctx th rel = .error .noSuchFit) ∧
    (∀ cm fr, separate ctx cm fr = .error .noSuchFit) ∧
    (∀ x0, conditional_cdf ctx x0 = .error .noSuchFit) ∧
    (∀ ds, simulate ctx ds = .error .noSuchFit) := by
  obtain ⟨d, reg2, v⟩ := ctx
  simp only at hempty
  subst hempty
  refine ⟨?_, ?_, rfl, fun _ => rfl, fun _ _ => rfl, fun _ _ => rfl,
    fun _ => rfl, fun _ => rfl⟩
  · have hnone : reg.find? (fun e => decide (e.1 = τ)) = none := by
      rw [List.find?_eq_none]
      intro e he
      simp only [decide_eq_true_eq]
      intro h1
      exact habs e.2 (by rw [← h1]; exact he)
    simp [lookupFit, hnone]
  · intro rel
    rfl

/-- Claim C7 witness: lookup in an empty registry, and the `errors` operation
on a context with an empty registry, both fail with `NoSuchFitError`. -/
theorem missing_fit_fails_witness :
    lookupFit [] 1 = .error .noSuchFit ∧
    errors wEmptyCtx false = .error .noSuchFit := by
  have h := missing_fit_fails [] 1 wEmptyCtx (by simp) rfl
  exact ⟨h.1, h.2.1 false⟩

/-- Claim C5: every derived-analytics operation (errors, both outlier
detectors, path-point picking, conditional CDF, separation, simulation)
leaves the dataset and the fit registry unchanged and sets the context's
current value to its own output; the fitting operation also sets the value to
its own per-τ result mapping while every previously recorded registry entry
persists. -/
theorem derived_ops_frame (ctx : Context) :
    (∀ rel r, errors ctx rel = .ok r →
      r.data = ctx.data ∧ r.registry = ctx.registry ∧
        r.value = errorsValue ctx rel) ∧
    (∀ r, outliers ctx = .ok r →
      r.data = ctx.data ∧ r.registry = ctx.registry ∧
        r.value = outliersValue ctx) ∧
    (∀ ident r, find_anomalies_by_residuals ctx ident = .ok r →
      r.data = ctx.data ∧ r.registry = ctx.registry ∧
        r.value = anomaliesValue ctx ident) ∧
    (∀ th rel r, pick_path_points ctx th rel = .ok r →
      r.data = ctx.data ∧ r.registry = ctx.registry ∧
        r.value = pathPointsValue ctx th rel) ∧
    (∀ cm fr r, separate ctx cm fr = .ok r →
      r.data = ctx.data ∧ r.registry = ctx.registry ∧
        r.value = separateValue ctx fr) ∧
    (∀ x0 r, conditional_cdf ctx x0 = .ok r →
      r.data = ctx.data ∧ r.registry = ctx.registry ∧
        r.value = conditionalCdfValue ctx x0) ∧
    (∀ ds r, simulate ctx ds = .ok r →
      r.data = ctx.data ∧ r.registry = ctx.registry ∧
        r.value = simulateValue ctx ds) ∧
    (∀ solver funcs probs,
      (quantile_regression_fit solver ctx funcs probs).data = ctx.data ∧
      (quantile_regression_fit solver ctx funcs probs).value =
        .fitResults (probs.map (fun τ => (τ, qrSolve solver ctx.data funcs τ))) ∧
      ∀ e ∈ ctx.registry,
        e ∈ (quantile_regression_fit solver ctx funcs probs).registry) := by
  obtain ⟨d, reg, v⟩ := ctx
  cases reg with
  | nil =>
    refine ⟨?_, ?_, ?_, ?_, ?_, ?_, ?_, ?_⟩
    · intro rel r h; exact absurd h (by simp [errors])
    · intro r h; exact absurd h (by simp [outliers])
    · intro ident r h; exact absurd h (by simp [find_anomalies_by_residuals])
    · intro th rel r h; exact absurd h (by simp [pick_path_points])
    · intro cm fr r h; exact absurd h (by simp [separate])
    · intro x0 r h; exact absurd h (by simp [conditional_cdf])
    · intro ds r h; exact absurd h (by simp [simulate])
    · intro solver funcs probs
      exact ⟨rfl, rfl, by simp⟩
  | cons e rest =>
    refine ⟨?_, ?_, ?_, ?_, ?_, ?_, ?_, ?_⟩
    · intro rel r h
      cases h
      exact ⟨rfl, rfl, rfl⟩
    · intro r h
      cases h
      exact ⟨rfl, rfl, rfl⟩
    · intro ident r h
      cases h
      exact ⟨rfl, rfl, rfl⟩
    · intro th rel r h
      cases h
      exact ⟨rfl, rfl, rfl⟩
    · intro cm fr r h
      cases h
      exact ⟨rfl, rfl, rfl⟩
    · intro x0 r h
      cases h
      exact ⟨rfl, rfl, rfl⟩
    · intro ds r h
      cases h
      exact ⟨rfl, rfl, rfl⟩
    · intro solver funcs probs
      exact ⟨rfl, rfl, fun e2 he2 => List.mem_append_left _ he2⟩

/-- Claim C5 witness: on a concrete one-fit context, the `errors` operation's
result keeps the dataset and registry and stores its own output as the value. -/
theorem derived_ops_frame_witness :
    wCtxErr.data = wCtx.data ∧ wCtxErr.registry = wCtx.registry ∧
      wCtxErr.value = errorsValue wCtx false :=
  (derived_ops_frame wCtx).1 false wCtxErr rfl

/-- Claim C9: on a context with fitted quantiles, `errors` succeeds and its
value is a mapping whose keys are exactly the fitted probabilities, and whose
entry for each fitted (τ, f) is the per-observation sequence of pairs
(x_i, y_i − f(x_i)) — one pair per observation, not a bare error sequence. -/
theorem errors_value_structure (ctx : Context) (hne : ctx.registry ≠ []) :
    errors ctx false = .ok { ctx with value := errorsValue ctx false } ∧
    errorsValue ctx false = .groups (ctx.registry.map (fun tf =>
      (tf.1, ctx.data.map (fun p => (p.1, p.2 - tf.2 p.1))))) ∧
    (ctx.registry.map (fun tf =>
      (tf.1, ctx.data.map (fun p => (p.1, p.2 - tf.2 p.1))))).map Prod.fst =
      ctx.registry.map Prod.fst ∧
    ∀ tf ∈ ctx.registry,
      (tf.1, ctx.data.map (fun p => (p.1, p.2 - tf.2 p.1))) ∈
        ctx.registry.map (fun tf2 =>
          (tf2.1, ctx.data.map (fun p => (p.1, p.2 - tf2.2 p.1)))) := by
  refine ⟨?_, ?_, ?_, ?_⟩
  · obtain ⟨d, reg, v⟩ := ctx
    cases reg with
    | nil => exact absurd rfl hne
    | cons e rest => rfl
  · simp [errorsValue, errAt]
  · simp [List.map_map]
  · intro tf htf
    exact List.mem_map_of_mem _ htf

/-- Claim C9 witness: the structure theorem applies to the concrete one-fit
context. -/
theorem errors_value_structure_witness :
    errors wCtx false = .ok { wCtx with value := errorsValue wCtx false } :=
  (errors_value_structure wCtx (by simp [wCtx])).1

/-- Claim C10: on a context with fitted quantiles, `pick_path_points` succeeds
and its value is a mapping keyed by each fitted probability — the entry of a
fitted (τ, f) is the list of original (x, y) data points whose vertical
distance to f is within the threshold — rather than a single flat point list. -/
theorem pick_path_points_structure (ctx : Context) (th : ℚ)
    (hne : ctx.registry ≠ []) :
    pick_path_points ctx th false =
      .ok { ctx with value := pathPointsValue ctx th false } ∧
    pathPointsValue ctx th false = .groups (ctx.registry.map (fun tf =>
      (tf.1, pathPoints ctx.data tf.2 th false))) ∧
    (ctx.registry.map (fun tf =>
      (tf.1, pathPoints ctx.data tf.2 th false))).map Prod.fst =
      ctx.registry.map Prod.fst ∧
    (∀ tf ∈ ctx.registry,
      (tf.1, pathPoints ctx.data tf.2 th false) ∈
        ctx.registry.map (fun tf2 =>
          (tf2.1, pathPoints ctx.data tf2.2 th false))) ∧
    ∀ tf ∈ ctx.registry, ∀ p : ℚ × ℚ,
      p ∈ pathPoints ctx.data tf.2 th false ↔
        p ∈ ctx.data ∧ |p.2 - tf.2 p.1| ≤ th := by
  refine ⟨?_, rfl, ?_, ?_, ?_⟩
  · obtain ⟨d, reg, v⟩ := ctx
    cases reg with
    | nil => exact absurd rfl hne
    | cons e rest => rfl
  · simp [List.map_map]
  · intro tf htf
    exact List.mem_map_of_mem _ htf
  · intro tf _ p
    simp [pathPoints, List.mem_filter, errAt]

/-- Claim C10 witness: the structure theorem applies to the concrete one-fit
context at threshold 1. -/
theorem pick_path_points_structure_witness :
    pick_path_points wCtx 1 false =
      .ok { wCtx with value := pathPointsValue wCtx 1 false } :=
  (pick_path_points_structure wCtx 1 (by simp [wCtx])).1

/-- Claim C8: residual-based outlier detection computes the residuals of the
designated quantile fit, flags exactly the data points whose residual is
outside the fences of the outlier-identifier strategy (for the quartile
strategy: [Q1 − k·IQR, Q3 + k·IQR]), and returns the flagged points with their
original coordinates. -/
theorem residual_outliers_spec (ctx : Context) (ident : List ℚ → ℚ × ℚ)
    (hne : ctx.registry ≠ []) :
    find_anomalies_by_residuals ctx ident =
      .ok { ctx with value := anomaliesValue ctx ident } ∧
    (∀ p : ℚ × ℚ,
      p ∈ residualOutliers ctx.data (headFit ctx)
          (ident (residualsOf ctx.data (headFit ctx))).1
          (ident (residualsOf ctx.data (headFit ctx))).2 ↔
        p ∈ ctx.data ∧
          (p.2 - headFit ctx p.1 < (ident (residualsOf ctx.data (headFit ctx))).1 ∨
           (ident (residualsOf ctx.data (headFit ctx))).2 < p.2 - headFit ctx p.1)) ∧
    ∀ k rs, quartile_identifier_parameters k rs =
      (q1Of rs - k * iqrOf rs, q3Of rs + k * iqrOf rs) := by
  refine ⟨?_, ?_, fun k rs => rfl⟩
  · obtain ⟨d, reg, v⟩ := ctx
    cases reg with
    | nil => exact absurd rfl hne
    | cons e rest => rfl
  · intro p
    simp [residualOutliers, List.mem_filter]

/-- Claim C8 witness: the residual-outlier theorem applies to the concrete
one-fit context with the Tukey quartile identifier at k = 3/2. -/
theorem residual_outliers_spec_witness :
    find_anomalies_by_residuals wCtx (quartile_identifier_parameters (3/2)) =
      .ok { wCtx with
        value := anomaliesValue wCtx (quartile_identifier_parameters (3/2)) } :=
  (residual_outliers_spec wCtx (quartile_identifier_parameters (3/2))
    (by simp [wCtx])).1

/-! Lemmas for the LP restatement of the pinball-loss minimization. -/

/-- The pinball loss splits over the positive and negative parts of its
argument. -/
theorem pinball_eq_parts (τ u : ℚ) :
    pinball τ u = τ * posPart u + (1 - τ) * negPart u := by
  unfold pinball posPart negPart
  rcases le_or_lt 0 u with h | h
  · rw [if_pos h, max_eq_left h, max_eq_right (by linarith : -u ≤ 0)]
    ring
  · rw [if_neg (not_le.mpr h), max_eq_right h.le,
      max_eq_left (by linarith : (0:ℚ) ≤ -u)]
    ring

/-- The pinball loss is non-negative for τ in [0, 1]. -/
theorem pinball_nonneg (τ u : ℚ) (h0 : 0 ≤ τ) (h1 : τ ≤ 1) :
    0 ≤ pinball τ u := by
  unfold pinball
  rcases le_or_lt 0 u with h | h
  · rw [if_pos h]; positivity
  · rw [if_neg (not_le.mpr h)]; nlinarith

/-- Pointwise slack bound: any admissible split a − b of a residual pays at
least the pinball loss. -/
theorem pinball_le_slack (τ a b : ℚ) (h0 : 0 ≤ τ) (h1 : τ ≤ 1)
    (ha : 0 ≤ a) (hb : 0 ≤ b) :
    pinball τ (a - b) ≤ τ * a + (1 - τ) * b := by
  rw [pinball_eq_parts]
  have hp : posPart (a - b) ≤ a := max_le (by linarith) ha
  have hn : negPart (a - b) ≤ b := max_le (by linarith) hb
  have h2 := mul_le_mul_of_nonneg_left hp h0
  have h3 := mul_le_mul_of_nonneg_left hn (by linarith : (0:ℚ) ≤ 1 - τ)
  linarith

/-- Any LP-feasible point's objective dominates the pinball loss of its
coefficient vector. -/
theorem lpFeasibleAux_loss_le (τ : ℚ) (basis : List (ℚ → ℚ)) (c : List ℚ) :
    ∀ (data : List (ℚ × ℚ)) (up um : List ℚ), 0 ≤ τ → τ ≤ 1 →
      lpFeasibleAux basis c data up um →
      pinballLoss τ data basis c ≤ lpObjective τ up um := by
  intro data
  induction data with
  | nil =>
    intro up um h0 h1 h
    cases up with
    | nil =>
      cases um with
      | nil => simp [pinballLoss, residualsOf, lpObjective]
      | cons b bs => exact absurd h (by simp [lpFeasibleAux])
    | cons a pas =>
      cases um with
      | nil => exact absurd h (by simp [lpFeasibleAux])
      | cons b bs => exact absurd h (by simp [lpFeasibleAux])
  | cons p ps ih =>
    intro up um h0 h1 h
    cases up with
    | nil =>
      cases um with
      | nil => exact absurd h (by simp [lpFeasibleAux])
      | cons b bs => exact absurd h (by simp [lpFeasibleAux])
    | cons a pas =>
      cases um with
      | nil => exact absurd h (by simp [lpFeasibleAux])
      | cons b bs =>
        obtain ⟨ha, hb, heq, hrest⟩ := h
        have h2 := ih pas bs h0 h1 hrest
        have h3 : p.2 - predict c basis p.1 = a - b := by linarith
        have h4 := pinball_le_slack τ a b h0 h1 ha hb
        simp only [pinballLoss, residualsOf, List.map_cons, List.sum_cons,
          lpObjective] at h2 ⊢
        rw [h3]
        nlinarith [h2, h4]

/-- The canonical slack split (positive and negative residual parts) is
feasible. -/
theorem lpFeasibleAux_canonical (basis : List (ℚ → ℚ)) (c : List ℚ) :
    ∀ data : List (ℚ × ℚ),
      lpFeasibleAux basis c data
        (data.map (fun p => posPart (p.2 - predict c basis p.1)))
        (data.map (fun p => negPart (p.2 - predict c basis p.1))) := by
  intro data
  induction data with
  | nil => trivial
  | cons p ps ih =>
    refine ⟨le_max_right _ _, le_max_right _ _, ?_, ih⟩
    have hsplit : posPart (p.2 - predict c basis p.1) -
        negPart (p.2 - predict c basis p.1) = p.2 - predict c basis p.1 := by
      unfold posPart negPart
      rcases le_or_lt 0 (p.2 - predict c basis p.1) with h | h
      · rw [max_eq_left h, max_eq_right (by linarith)]
        ring
      · rw [max_eq_right h.le, max_eq_left (by linarith)]
        ring
    linarith

/-- On the canonical slack split, the LP objective equals the pinball loss. -/
theorem lpObjective_canonical (τ : ℚ) (basis : List (ℚ → ℚ)) (c : List ℚ) :
    ∀ data : List (ℚ × ℚ),
      lpObjective τ
        (data.map (fun p => posPart (p.2 - predict c basis p.1)))
        (data.map (fun p => negPart (p.2 - predict c basis p.1))) =
      pinballLoss τ data basis c := by
  intro data
  induction data with
  | nil => simp [lpObjective, pinballLoss, residualsOf]
  | cons p ps ih =>
    simp only [lpObjective, pinballLoss, residualsOf, List.map_cons,
      List.sum_cons] at ih ⊢
    rw [pinball_eq_parts]
    linarith [ih]

/-- A feasible point's slack lists run in step with the dataset: n slack
variables on each side. -/
theorem lpFeasibleAux_lengths (basis : List (ℚ → ℚ)) (c : List ℚ) :
    ∀ (data : List (ℚ × ℚ)) (up um : List ℚ),
      lpFeasibleAux basis c data up um →
      up.length = data.length ∧ um.length = data.length := by
  intro data
  induction data with
  | nil =>
    intro up um h
    cases up with
    | nil =>
      cases um with
      | nil => exact ⟨rfl, rfl⟩
      | cons b bs => exact absurd h (by simp [lpFeasibleAux])
    | cons a pas =>
      cases um with
      | nil => exact absurd h (by simp [lpFeasibleAux])
      | cons b bs => exact absurd h (by simp [lpFeasibleAux])
  | cons p ps ih =>
    intro up um h
    cases up with
    | nil =>
      cases um with
      | nil => exact absurd h (by simp [lpFeasibleAux])
      | cons b bs => exact absurd h (by simp [lpFeasibleAux])
    | cons a pas =>
      cases um with
      | nil => exact absurd h (by simp [lpFeasibleAux])
      | cons b bs =>
        obtain ⟨_, _, _, hrest⟩ := h
        have h2 := ih pas bs hrest
        simp [h2.1, h2.2]

/-- Any feasible point has a non-negative LP objective when τ is in [0, 1]. -/
theorem lpObjective_nonneg (τ : ℚ) (basis : List (ℚ → ℚ)) (c : List ℚ)
    (h0 : 0 ≤ τ) (h1 : τ ≤ 1) :
    ∀ (data : List (ℚ × ℚ)) (up um : List ℚ),
      lpFeasibleAux basis c data up um → 0 ≤ lpObjective τ up um := by
  intro data
  induction data with
  | nil =>
    intro up um h
    cases up with
    | nil =>
      cases um with
      | nil => simp [lpObjective]
      | cons b bs => exact absurd h (by simp [lpFeasibleAux])
    | cons a pas =>
      cases um with
      | nil => exact absurd h (by simp [lpFeasibleAux])
      | cons b bs => exact absurd h (by simp [lpFeasibleAux])
  | cons p ps ih =>
    intro up um h
    cases up with
    | nil =>
      cases um with
      | nil => exact absurd h (by simp [lpFeasibleAux])
      | cons b bs => exact absurd h (by simp [lpFeasibleAux])
    | cons a pas =>
      cases um with
      | nil => exact absurd h (by simp [lpFeasibleAux])
      | cons b bs =>
        obtain ⟨ha, hb, _, hrest⟩ := h
        have h2 := ih pas bs hrest
        simp only [lpObjective, List.sum_cons] at h2 ⊢
        nlinarith [h2]

/-- Claim C1: an optimal point of the linear program of section 4.2 yields a
coefficient vector minimizing the pinball loss over all coefficient vectors of
the basis dimension, and the LP has the stated shape: d = `basis.length`
coefficient variables, n non-negative slack variables on each side (2n in
total), and n equality constraints, n being the dataset size. -/
theorem qr_lp_minimizes_pinball (τ : ℚ) (data : List (ℚ × ℚ))
    (basis : List (ℚ → ℚ)) (c up um : List ℚ)
    (hτ : 0 < τ ∧ τ < 1)
    (hfeas : lpFeasible data basis c up um)
    (hopt : ∀ c2 up2 um2, lpFeasible data basis c2 up2 um2 →
      lpObjective τ up um ≤ lpObjective τ up2 um2) :
    (∀ c2, c2.length = basis.length →
      pinballLoss τ data basis c ≤ pinballLoss τ data basis c2) ∧
    c.length = basis.length ∧
    up.length = data.length ∧ um.length = data.length ∧
    (lpEqualityConstraints data basis c up um).length = data.length := by
  obtain ⟨hlen, haux⟩ := hfeas
  have h0 : 0 ≤ τ := le_of_lt hτ.1
  have h1 : τ ≤ 1 := le_of_lt hτ.2
  have hlens := lpFeasibleAux_lengths basis c data up um haux
  refine ⟨?_, hlen, hlens.1, hlens.2, ?_⟩
  · intro c2 hc2
    have hcanon := lpFeasibleAux_canonical basis c2 data
    calc pinballLoss τ data basis c
        ≤ lpObjective τ up um := lpFeasibleAux_loss_le τ basis c data up um h0 h1 haux
      _ ≤ lpObjective τ
            (data.map (fun p => posPart (p.2 - predict c2 basis p.1)))
            (data.map (fun p => negPart (p.2 - predict c2 basis p.1))) :=
          hopt c2 _ _ ⟨hc2, hcanon⟩
      _ = pinballLoss τ data basis c2 := lpObjective_canonical τ basis c2 data
  · simp [lpEqualityConstraints, List.length_zip, hlens.1, hlens.2]

/-- Claim C1 witness: on the one-point dataset with the constant basis, the
LP-optimal coefficient 1 has pinball loss at most that of the coefficient 0. -/
theorem qr_lp_minimizes_pinball_witness :
    pinballLoss (1/2) c1Data c1Basis [1] ≤ pinballLoss (1/2) c1Data c1Basis [0] := by
  have hfeas : lpFeasible c1Data c1Basis [1] [0] [0] := by
    refine ⟨by simp [c1Basis], ?_, ?_, ?_, trivial⟩
    · exact le_refl 0
    · exact le_refl 0
    · norm_num [predict, c1Basis, c1Data]
  have hopt : ∀ c2 up2 um2, lpFeasible c1Data c1Basis c2 up2 um2 →
      lpObjective (1/2) [0] [0] ≤ lpObjective (1/2) up2 um2 := by
    intro c2 up2 um2 hf
    have h2 := lpObjective_nonneg (1/2) c1Basis c2 (by norm_num) (by norm_num)
      c1Data up2 um2 hf.2
    have h3 : lpObjective (1/2) [(0:ℚ)] [0] = 0 := by
      norm_num [lpObjective]
    rw [h3]
    exact h2
  exact (qr_lp_minimizes_pinball (1/2) c1Data c1Basis [1] [0] [0]
    ⟨by norm_num, by norm_num⟩ hfeas hopt).1 [0] (by simp [c1Basis])

/-! Lemmas for the cumulative-separation-fraction property. -/

/-- On a non-negative argument the pinball loss is the scaled identity. -/
theorem pinball_of_nonneg (τ u : ℚ) (h : 0 ≤ u) : pinball τ u = τ * u := by
  simp [pinball, h]

/-- On a non-positive argument the pinball loss is the (τ−1)-scaled
identity. -/
theorem pinball_of_nonpos (τ u : ℚ) (h : u ≤ 0) : pinball τ u = (τ - 1) * u := by
  rcases lt_or_eq_of_le h with h2 | h2
  · simp [pinball, not_le.mpr h2]
  · subst h2
    simp [pinball]

/-- Exact effect of shifting all residuals down by a step no larger than any
nonzero residual magnitude: per point, positive residuals lose τ·t and the
rest gain (1−τ)·t. -/
theorem pinball_sum_shift_up (τ t : ℚ) (ht : 0 < t) :
    ∀ rs : List ℚ, (∀ r ∈ rs, r ≠ 0 → t ≤ |r|) →
      ((rs.map (fun r => pinball τ (r - t))).sum =
        (rs.map (fun r => pinball τ r)).sum +
          t * ((1 - τ) * (rs.countP (fun r => decide (r ≤ 0)) : ℚ) -
               τ * (rs.countP (fun r => decide (0 < r)) : ℚ))) := by
  intro rs
  induction rs with
  | nil => intro _; simp
  | cons r rs ih =>
    intro h
    have ih2 := ih (fun x hx hne => h x (List.mem_cons_of_mem _ hx) hne)
    rcases lt_trichotomy r 0 with hneg | hzero | hpos
    · have e1 : pinball τ (r - t) = (τ - 1) * (r - t) :=
        pinball_of_nonpos τ _ (by linarith)
      have e2 : pinball τ r = (τ - 1) * r := pinball_of_nonpos τ _ hneg.le
      have hc1 : (decide (r ≤ 0)) = true := decide_eq_true hneg.le
      have hc2 : (decide (0 < r)) = false := decide_eq_false (by linarith)
      simp only [List.map_cons, List.sum_cons, List.countP_cons, hc1, hc2,
        e1, e2, ih2, if_true, if_false]
      push_cast
      ring
    · subst hzero
      have e1 : pinball τ (0 - t) = (τ - 1) * (0 - t) :=
        pinball_of_nonpos τ _ (by linarith)
      have e2 : pinball τ (0:ℚ) = (τ - 1) * 0 := pinball_of_nonpos τ _ le_rfl
      have hc1 : (decide ((0:ℚ) ≤ 0)) = true := decide_eq_true le_rfl
      have hc2 : (decide ((0:ℚ) < 0)) = false := decide_eq_false (lt_irrefl 0)
      simp only [List.map_cons, List.sum_cons, List.countP_cons, hc1, hc2,
        e1, e2, ih2, if_true, if_false]
      push_cast
      ring
    · have hr : t ≤ r := by
        have h2 := h r (List.mem_cons_self r rs) (ne_of_gt hpos)
        rwa [abs_of_pos hpos] at h2
      have e1 : pinball τ (r - t) = τ * (r - t) :=
        pinball_of_nonneg τ _ (by linarith)
      have e2 : pinball τ r = τ * r := pinball_of_nonneg τ _ hpos.le
      have hc1 : (decide (r ≤ 0)) = false := decide_eq_false (by linarith)
      have hc2 : (decide (0 < r)) = true := decide_eq_true hpos
      simp only [List.map_cons, List.sum_cons, List.countP_cons, hc1, hc2,
        e1, e2, ih2, if_true, if_false]
      push_cast
      ring

/-- Exact effect of shifting all residuals up by a step no larger than any
nonzero residual magnitude: per point, non-negative residuals gain τ·t and
negative residuals lose (1−τ)·t. -/
theorem pinball_sum_shift_down (τ t : ℚ) (ht : 0 < t) :
    ∀ rs : List ℚ, (∀ r ∈ rs, r ≠ 0 → t ≤ |r|) →
      ((rs.map (fun r => pinball τ (r + t))).sum =
        (rs.map (fun r => pinball τ r)).sum +
          t * (τ * (rs.countP (fun r => decide (0 ≤ r)) : ℚ) -
               (1 - τ) * (rs.countP (fun r => decide (r < 0)) : ℚ))) := by
  intro rs
  induction rs with
  | nil => intro _; simp
  | cons r rs ih =>
    intro h
    have ih2 := ih (fun x hx hne => h x (List.mem_cons_of_mem _ hx) hne)
    rcases lt_or_le r 0 with hneg | hpos
    · have hr : t ≤ -r := by
        have h2 := h r (List.mem_cons_self r rs) (ne_of_lt hneg)
        rwa [abs_of_neg hneg] at h2
      have e1 : pinball τ (r + t) = (τ - 1) * (r + t) :=
        pinball_of_nonpos τ _ (by linarith)
      have e2 : pinball τ r = (τ - 1) * r := pinball_of_nonpos τ _ hneg.le
      have hc1 : (decide ((0:ℚ) ≤ r)) = false := decide_eq_false (not_le.mpr hneg)
      have hc2 : (decide (r < 0)) = true := decide_eq_true hneg
      simp only [List.map_cons, List.sum_cons, List.countP_cons, hc1, hc2,
        e1, e2, ih2, if_true, if_false]
      push_cast
      ring
    · have e1 : pinball τ (r + t) = τ * (r + t) :=
        pinball_of_nonneg τ _ (by linarith)
      have e2 : pinball τ r = τ * r := pinball_of_nonneg τ _ hpos
      have hc1 : (decide ((0:ℚ) ≤ r)) = true := decide_eq_true hpos
      have hc2 : (decide (r < 0)) = false := decide_eq_false (not_lt.mpr hpos)
      simp only [List.map_cons, List.sum_cons, List.countP_cons, hc1, hc2,
        e1, e2, ih2, if_true, if_false]
      push_cast
      ring

/-- A fold of `min` over positives starting at 1 stays positive. -/
theorem foldr_min_pos : ∀ l : List ℚ, (∀ x ∈ l, 0 < x) → 0 < l.foldr min 1 := by
  intro l
  induction l with
  | nil => intro _; norm_num
  | cons a l ih =>
    intro h
    simp only [List.foldr_cons]
    exact lt_min (h a (List.mem_cons_self a l))
      (ih (fun x hx => h x (List.mem_cons_of_mem _ hx)))

/-- A fold of `min` bounds every element of the list from below. -/
theorem foldr_min_le : ∀ (l : List ℚ) (x : ℚ), x ∈ l → l.foldr min 1 ≤ x := by
  intro l
  induction l with
  | nil => intro x hx; exact absurd hx (by simp)
  | cons a l ih =>
    intro x hx
    simp only [List.foldr_cons]
    rcases List.mem_cons.mp hx with rfl | hx2
    · exact min_le_left _ _
    · exact le_trans (min_le_right _ _) (ih x hx2)

/-- The smallest nonzero residual magnitude is positive. -/
theorem minPosAbs_pos (rs : List ℚ) : 0 < minPosAbs rs := by
  apply foldr_min_pos
  intro x hx
  rcases List.mem_map.mp hx with ⟨r, hr, rfl⟩
  have h2 : r ≠ 0 := by
    have h3 := (List.mem_filter.mp hr).2
    simpa using h3
  exact abs_pos.mpr h2

/-- The smallest nonzero residual magnitude bounds every nonzero residual. -/
theorem minPosAbs_le (rs : List ℚ) (r : ℚ) (hr : r ∈ rs) (hne : r ≠ 0) :
    minPosAbs rs ≤ |r| := by
  apply foldr_min_le
  exact List.mem_map_of_mem _ (List.mem_filter.mpr ⟨hr, by simp [hne]⟩)

/-- Adding s to the coefficient of a constant-one basis function shifts every
prediction by s. -/
theorem predict_set_const :
    ∀ (c : List ℚ) (basis : List (ℚ → ℚ)) (j : ℕ) (hj : j < basis.length),
      c.length = basis.length → basis.get ⟨j, hj⟩ = (fun _ => (1:ℚ)) →
      ∀ s x, predict (c.set j (c.getD j 0 + s)) basis x =
        predict c basis x + s := by
  intro c
  induction c with
  | nil =>
    intro basis j hj hlen hconst s x
    rw [← hlen] at hj
    exact absurd hj (by simp)
  | cons a ct ih =>
    intro basis j hj hlen hconst s x
    cases basis with
    | nil => simp at hlen
    | cons f bt =>
      cases j with
      | zero =>
        have hf : f = fun _ => (1:ℚ) := hconst
        simp only [List.getD_cons_zero, List.set_cons_zero, predict,
          List.zipWith_cons_cons, List.sum_cons]
        rw [hf]
        ring
      | succ j2 =>
        have hj2 : j2 < bt.length := by simpa using hj
        have hlen2 : ct.length = bt.length := by simpa using hlen
        have hconst2 : bt.get ⟨j2, hj2⟩ = fun _ => (1:ℚ) := by
          simpa using hconst
        have ih2 := ih bt j2 hj2 hlen2 hconst2 s x
        simp only [List.getD_cons_succ, List.set_cons_succ, predict,
          List.zipWith_cons_cons, List.sum_cons] at ih2 ⊢
        rw [ih2]
        ring

/-- Shifting the constant coefficient turns the loss into the loss of the
residuals shifted by s. -/
theorem pinballLoss_set_const (τ : ℚ) (data : List (ℚ × ℚ))
    (basis : List (ℚ → ℚ)) (c : List ℚ) (j : ℕ) (hj : j < basis.length)
    (hlen : c.length = basis.length)
    (hconst : basis.get ⟨j, hj⟩ = fun _ => (1:ℚ)) (s : ℚ) :
    pinballLoss τ data basis (c.set j (c.getD j 0 + s)) =
      ((residualsOf data (predict c basis)).map
        (fun r => pinball τ (r - s))).sum := by
  unfold pinballLoss residualsOf
  rw [List.map_map, List.map_map]
  refine congrArg List.sum (List.map_congr_left ?_)
  intro p _
  simp only [Function.comp]
  rw [predict_set_const c basis j hj hlen hconst s p.1]
  congr 1
  ring

/-- Splitting the non-positive residual count into negatives and zeros. -/
theorem countP_le_split (rs : List ℚ) :
    rs.countP (fun r => decide (r ≤ 0)) =
      rs.countP (fun r => decide (r < 0)) +
        rs.countP (fun r => decide (r = 0)) := by
  induction rs with
  | nil => rfl
  | cons r rs ih =>
    rcases lt_trichotomy r 0 with h | h | h
    · rw [List.countP_cons_of_pos _ _ (by simp [h.le]),
        List.countP_cons_of_pos _ _ (by simp [h]),
        List.countP_cons_of_neg _ _ (by simp [h.ne]), ih]
      omega
    · subst h
      rw [List.countP_cons_of_pos _ _ (by simp),
        List.countP_cons_of_neg _ _ (by simp),
        List.countP_cons_of_pos _ _ (by simp), ih]
      omega
    · rw [List.countP_cons_of_neg _ _ (by simp [not_le.mpr h]),
        List.countP_cons_of_neg _ _ (by simp [not_lt.mpr h.le]),
        List.countP_cons_of_neg _ _ (by simp [ne_of_gt h]), ih]

/-- Splitting the non-negative residual count into positives and zeros. -/
theorem countP_ge_split (rs : List ℚ) :
    rs.countP (fun r => decide (0 ≤ r)) =
      rs.countP (fun r => decide (0 < r)) +
        rs.countP (fun r => decide (r = 0)) := by
  induction rs with
  | nil => rfl
  | cons r rs ih =>
    rcases lt_trichotomy r 0 with h | h | h
    · rw [List.countP_cons_of_neg _ _ (by simp [not_le.mpr h]),
        List.countP_cons_of_neg _ _ (by simp [not_lt.mpr h.le]),
        List.countP_cons_of_neg _ _ (by simp [ne_of_lt h]), ih]
    · subst h
      rw [List.countP_cons_of_pos _ _ (by simp),
        List.countP_cons_of_neg _ _ (by simp),
        List.countP_cons_of_pos _ _ (by simp), ih]
      omega
    · rw [List.countP_cons_of_pos _ _ (by simp [h.le]),
        List.countP_cons_of_pos _ _ (by simp [h]),
        List.countP_cons_of_neg _ _ (by simp [ne_of_gt h]), ih]
      omega

/-- Positives and non-positives partition the residual list. -/
theorem countP_pos_add_le (rs : List ℚ) :
    rs.countP (fun r => decide (0 < r)) +
      rs.countP (fun r => decide (r ≤ 0)) = rs.length := by
  induction rs with
  | nil => rfl
  | cons r rs ih =>
    rcases le_or_lt r 0 with h | h
    · rw [List.countP_cons_of_neg _ _ (by simp [not_lt.mpr h]),
        List.countP_cons_of_pos _ _ (by simp [h]), List.length_cons]
      omega
    · rw [List.countP_cons_of_pos _ _ (by simp [h]),
        List.countP_cons_of_neg _ _ (by simp [not_le.mpr h]), List.length_cons]
      omega

/-- The separation count is the count of non-positive residuals. -/
theorem separateCount_eq_residual_count (data : List (ℚ × ℚ)) (f : ℚ → ℚ) :
    separateCount data f =
      (residualsOf data f).countP (fun r => decide (r ≤ 0)) := by
  unfold separateCount residualsOf
  rw [List.countP_map]
  refine List.countP_congr ?_
  intro p _
  simp [sub_nonpos]

/-- The pinball loss of any coefficient vector is non-negative for τ in
[0, 1]. -/
theorem pinballLoss_nonneg (τ : ℚ) (data : List (ℚ × ℚ))
    (basis : List (ℚ → ℚ)) (c : List ℚ) (h0 : 0 ≤ τ) (h1 : τ ≤ 1) :
    0 ≤ pinballLoss τ data basis c := by
  unfold pinballLoss
  apply List.sum_nonneg
  intro x hx
  rcases List.mem_map.mp hx with ⟨r, _, rfl⟩
  exact pinball_nonneg τ r h0 h1

/-- Claim C2: at an exact pinball-loss minimizer over a basis spanning the
constants, the cumulative separation fraction — the fraction of points with
y_i ≤ f_τ(x_i) — approximates τ: it is at least τ and exceeds τ by at most the
fraction of exactly-interpolated points (at most d/n for a basis in general
position, so the bound tightens as the sample grows); and `separate` with
`cumulative` and `fractions` set computes exactly this fraction per fitted
probability. -/
theorem separation_fraction_near_tau (τ : ℚ) (data : List (ℚ × ℚ))
    (basis : List (ℚ → ℚ)) (c : List ℚ) (j : ℕ)
    (hτ : 0 < τ ∧ τ < 1) (hlen : c.length = basis.length)
    (hj : j < basis.length) (hconst : basis.get ⟨j, hj⟩ = fun _ => (1:ℚ))
    (hmin : ∀ c2, c2.length = basis.length →
      pinballLoss τ data basis c ≤ pinballLoss τ data basis c2)
    (hne : data ≠ []) :
    τ ≤ separateFraction data (predict c basis) ∧
    separateFraction data (predict c basis) ≤ τ +
      ((residualsOf data (predict c basis)).countP
        (fun r => decide (r = 0)) : ℚ) / (data.length : ℚ) ∧
    ∀ (reg : List (ℚ × (ℚ → ℚ))) (v : PipeValue), reg ≠ [] →
      separate ⟨data, reg, v⟩ true true =
        .ok ⟨data, reg,
          .fracs (reg.map (fun tf => (tf.1, separateFraction data tf.2)))⟩ := by
  set rs := residualsOf data (predict c basis) with hrsdef
  have ht := minPosAbs_pos rs
  have hb : ∀ r ∈ rs, r ≠ 0 → minPosAbs rs ≤ |r| :=
    fun r hr hne2 => minPosAbs_le rs r hr hne2
  have hbase : pinballLoss τ data basis c =
      (rs.map (fun r => pinball τ r)).sum := by
    rw [hrsdef]
    rfl
  have hup := hmin (c.set j (c.getD j 0 + minPosAbs rs))
    (by rw [List.length_set]; exact hlen)
  rw [pinballLoss_set_const τ data basis c j hj hlen hconst (minPosAbs rs),
    ← hrsdef, pinball_sum_shift_up τ (minPosAbs rs) ht rs hb, ← hbase] at hup
  have hA : 0 ≤ (1 - τ) * (rs.countP (fun r => decide (r ≤ 0)) : ℚ) -
      τ * (rs.countP (fun r => decide (0 < r)) : ℚ) := by
    have h2 : 0 ≤ minPosAbs rs *
        ((1 - τ) * (rs.countP (fun r => decide (r ≤ 0)) : ℚ) -
         τ * (rs.countP (fun r => decide (0 < r)) : ℚ)) := by linarith
    exact (mul_nonneg_iff_of_pos_left ht).mp h2
  have hdn := hmin (c.set j (c.getD j 0 + -(minPosAbs rs)))
    (by rw [List.length_set]; exact hlen)
  rw [pinballLoss_set_const τ data basis c j hj hlen hconst (-(minPosAbs rs)),
    ← hrsdef] at hdn
  simp only [sub_neg_eq_add] at hdn
  rw [pinball_sum_shift_down τ (minPosAbs rs) ht rs hb, ← hbase] at hdn
  have hB : 0 ≤ τ * (rs.countP (fun r => decide (0 ≤ r)) : ℚ) -
      (1 - τ) * (rs.countP (fun r => decide (r < 0)) : ℚ) := by
    have h2 : 0 ≤ minPosAbs rs *
        (τ * (rs.countP (fun r => decide (0 ≤ r)) : ℚ) -
         (1 - τ) * (rs.countP (fun r => decide (r < 0)) : ℚ)) := by linarith
    exact (mul_nonneg_iff_of_pos_left ht).mp h2
  have hrslen : rs.length = data.length := by
    rw [hrsdef]
    exact List.length_map _ _
  have hn : (0:ℚ) < (data.length : ℚ) := by
    exact_mod_cast List.length_pos.mpr hne
  have hgq : (rs.countP (fun r => decide (0 < r)) : ℚ) =
      (data.length : ℚ) - (rs.countP (fun r => decide (r ≤ 0)) : ℚ) := by
    have h5 : rs.countP (fun r => decide (0 < r)) +
        rs.countP (fun r => decide (r ≤ 0)) = data.length := by
      rw [← hrslen]
      exact countP_pos_add_le rs
    have h6 : (rs.countP (fun r => decide (0 < r)) : ℚ) +
        (rs.countP (fun r => decide (r ≤ 0)) : ℚ) = (data.length : ℚ) := by
      exact_mod_cast h5
    linarith
  have hgeq : (rs.countP (fun r => decide (0 ≤ r)) : ℚ) =
      ((data.length : ℚ) - (rs.countP (fun r => decide (r ≤ 0)) : ℚ)) +
        (rs.countP (fun r => decide (r = 0)) : ℚ) := by
    have h6 : (rs.countP (fun r => decide (0 ≤ r)) : ℚ) =
        (rs.countP (fun r => decide (0 < r)) : ℚ) +
          (rs.countP (fun r => decide (r = 0)) : ℚ) := by
      exact_mod_cast countP_ge_split rs
    rw [h6, hgq]
  have hlte : (rs.countP (fun r => decide (r < 0)) : ℚ) =
      (rs.countP (fun r => decide (r ≤ 0)) : ℚ) -
        (rs.countP (fun r => decide (r = 0)) : ℚ) := by
    have h6 : (rs.countP (fun r => decide (r ≤ 0)) : ℚ) =
        (rs.countP (fun r => decide (r < 0)) : ℚ) +
          (rs.countP (fun r => decide (r = 0)) : ℚ) := by
      exact_mod_cast countP_le_split rs
    linarith
  rw [hgq] at hA
  rw [hgeq, hlte] at hB
  have hx1 : τ * (data.length : ℚ) ≤
      (rs.countP (fun r => decide (r ≤ 0)) : ℚ) := by nlinarith [hA]
  have hx2 : (rs.countP (fun r => decide (r ≤ 0)) : ℚ) ≤
      τ * (data.length : ℚ) + (rs.countP (fun r => decide (r = 0)) : ℚ) := by
    nlinarith [hB]
  have hcnt : separateCount data (predict c basis) =
      rs.countP (fun r => decide (r ≤ 0)) := by
    rw [hrsdef]
    exact separateCount_eq_residual_count data (predict c basis)
  refine ⟨?_, ?_, ?_⟩
  · unfold separateFraction
    rw [hcnt, le_div_iff₀ hn]
    linarith [hx1]
  · unfold separateFraction
    rw [hcnt, div_le_iff₀ hn]
    have h7 : (τ + (rs.countP (fun r => decide (r = 0)) : ℚ) /
        (data.length : ℚ)) * (data.length : ℚ) =
        τ * (data.length : ℚ) + (rs.countP (fun r => decide (r = 0)) : ℚ) := by
      rw [add_mul, div_mul_cancel₀ _ (ne_of_gt hn)]
    rw [h7]
    linarith [hx2]
  · intro reg v hr
    cases reg with
    | nil => exact absurd rfl hr
    | cons e rest => rfl

/-- Claim C2 witness: on the one-point dataset with the constant basis, the
coefficient 0 is a pinball minimizer for τ = 1/2 and the separation fraction
is at least 1/2. -/
theorem separation_fraction_near_tau_witness :
    (1/2 : ℚ) ≤ separateFraction c2Data (predict [0] c2Basis) := by
  have hmin : ∀ c2, c2.length = c2Basis.length →
      pinballLoss (1/2) c2Data c2Basis [0] ≤
        pinballLoss (1/2) c2Data c2Basis c2 := by
    intro c2 _
    have hL : pinballLoss (1/2) c2Data c2Basis [0] = 0 := by
      norm_num [pinballLoss, residualsOf, predict, c2Data, c2Basis, pinball]
    rw [hL]
    exact pinballLoss_nonneg (1/2) c2Data c2Basis c2 (by norm_num) (by norm_num)
  exact (separation_fraction_near_tau (1/2) c2Data c2Basis [0] 0
    ⟨by norm_num, by norm_num⟩ (by simp [c2Basis]) (by simp [c2Basis]) rfl
    hmin (by simp [c2Data])).1

/-! Lemmas for the conditional-CDF reconstruction. -/

/-- The trivial relation chains over any list. -/
theorem chain'_true : ∀ l : List ℚ, List.Chain' (fun _ _ => True) l := by
  intro l
  induction l with
  | nil => simp
  | cons a l ih => exact List.chain'_cons'.mpr ⟨fun _ _ => trivial, ih⟩

/-- Zipping two chained lists chains the pairs componentwise. -/
theorem chain'_zip {r s : ℚ → ℚ → Prop} :
    ∀ (l1 l2 : List ℚ), List.Chain' r l1 → List.Chain' s l2 →
      List.Chain' (fun p q : ℚ × ℚ => r p.1 q.1 ∧ s p.2 q.2) (l1.zip l2) := by
  intro l1
  induction l1 with
  | nil => intro l2 _ _; simp
  | cons a l1 ih =>
    intro l2 h1 h2
    cases l2 with
    | nil => simp
    | cons b l2 =>
      rw [List.zip_cons_cons]
      apply List.chain'_cons'.mpr
      refine ⟨?_, ih l2 h1.tail h2.tail⟩
      intro y hy
      cases l1 with
      | nil => simp at hy
      | cons a2 l1t =>
        cases l2 with
        | nil => simp at hy
        | cons b2 l2t =>
          rw [List.zip_cons_cons] at hy
          simp only [List.head?_cons, Option.mem_def, Option.some.injEq] at hy
          subst hy
          exact ⟨(List.chain'_cons.mp h1).1, (List.chain'_cons.mp h2).1⟩

/-- The interpolation tail never drops below its entry level when queried to
the right of the entry point. -/
theorem interpAfter_ge :
    ∀ (rest : List (ℚ × ℚ)) (v1 t1 y : ℚ),
      List.Chain' (fun p q : ℚ × ℚ => p.1 ≤ q.1) ((v1, t1) :: rest) →
      List.Chain' (fun p q : ℚ × ℚ => p.2 ≤ q.2) ((v1, t1) :: rest) →
      v1 < y → t1 ≤ interpAfter v1 t1 rest y := by
  intro rest
  induction rest with
  | nil => intro v1 t1 y _ _ _; exact le_refl t1
  | cons p2 rest ih =>
    intro v1 t1 y hv ht hy
    obtain ⟨v2, t2⟩ := p2
    have hv12 : v1 ≤ v2 := (List.chain'_cons.mp hv).1
    have ht12 : t1 ≤ t2 := (List.chain'_cons.mp ht).1
    simp only [interpAfter]
    by_cases h2 : y ≤ v2
    · rw [if_pos h2]
      by_cases h3 : v1 = v2
      · rw [if_pos h3]
        exact ht12
      · rw [if_neg h3]
        have hlt : v1 < v2 := lt_of_le_of_ne hv12 h3
        have hnum : 0 ≤ (t2 - t1) * (y - v1) :=
          mul_nonneg (by linarith) (by linarith)
        have hdiv : 0 ≤ (t2 - t1) * (y - v1) / (v2 - v1) :=
          div_nonneg hnum (by linarith)
        linarith
    · rw [if_neg h2]
      exact le_trans ht12
        (ih v2 t2 y (List.chain'_cons.mp hv).2 (List.chain'_cons.mp ht).2
          (not_le.mp h2))

/-- The interpolation tail never exceeds an upper bound of all its levels. -/
theorem interpAfter_le :
    ∀ (rest : List (ℚ × ℚ)) (v1 t1 y T : ℚ),
      List.Chain' (fun p q : ℚ × ℚ => p.1 ≤ q.1) ((v1, t1) :: rest) →
      List.Chain' (fun p q : ℚ × ℚ => p.2 ≤ q.2) ((v1, t1) :: rest) →
      t1 ≤ T → (∀ p ∈ rest, p.2 ≤ T) →
      interpAfter v1 t1 rest y ≤ T := by
  intro rest
  induction rest with
  | nil => intro v1 t1 y T _ _ h1 _; exact h1
  | cons p2 rest ih =>
    intro v1 t1 y T hv ht h1 hall
    obtain ⟨v2, t2⟩ := p2
    have hv12 : v1 ≤ v2 := (List.chain'_cons.mp hv).1
    have ht12 : t1 ≤ t2 := (List.chain'_cons.mp ht).1
    have ht2T : t2 ≤ T := hall (v2, t2) (List.mem_cons_self _ _)
    simp only [interpAfter]
    by_cases h2 : y ≤ v2
    · rw [if_pos h2]
      by_cases h3 : v1 = v2
      · rw [if_pos h3]
        exact ht2T
      · rw [if_neg h3]
        have hlt : v1 < v2 := lt_of_le_of_ne hv12 h3
        rw [mul_div_assoc]
        have hq1 : (y - v1) / (v2 - v1) ≤ 1 :=
          (div_le_one (by linarith)).mpr (by linarith)
        have h5 := mul_le_mul_of_nonneg_left hq1
          (by linarith : (0:ℚ) ≤ t2 - t1)
        rw [mul_one] at h5
        linarith
    · rw [if_neg h2]
      exact ih v2 t2 y T (List.chain'_cons.mp hv).2 (List.chain'_cons.mp ht).2
        ht2T (fun p hp => hall p (List.mem_cons_of_mem _ hp))

/-- The interpolation tail is monotone in the query. -/
theorem interpAfter_mono :
    ∀ (rest : List (ℚ × ℚ)) (v1 t1 y y2 : ℚ),
      List.Chain' (fun p q : ℚ × ℚ => p.1 ≤ q.1) ((v1, t1) :: rest) →
      List.Chain' (fun p q : ℚ × ℚ => p.2 ≤ q.2) ((v1, t1) :: rest) →
      v1 < y → y ≤ y2 →
      interpAfter v1 t1 rest y ≤ interpAfter v1 t1 rest y2 := by
  intro rest
  induction rest with
  | nil => intro v1 t1 y y2 _ _ _ _; exact le_refl t1
  | cons p2 rest ih =>
    intro v1 t1 y y2 hv ht hy hyy
    obtain ⟨v2, t2⟩ := p2
    have hv12 : v1 ≤ v2 := (List.chain'_cons.mp hv).1
    have ht12 : t1 ≤ t2 := (List.chain'_cons.mp ht).1
    simp only [interpAfter]
    by_cases h2 : y ≤ v2
    · rw [if_pos h2]
      by_cases h3 : y2 ≤ v2
      · rw [if_pos h3]
        by_cases h4 : v1 = v2
        · rw [if_pos h4, if_pos h4]
        · rw [if_neg h4, if_neg h4]
          have hlt : v1 < v2 := lt_of_le_of_ne hv12 h4
          have h5 : (t2 - t1) * (y - v1) ≤ (t2 - t1) * (y2 - v1) :=
            mul_le_mul_of_nonneg_left (by linarith) (by linarith)
          have h6 : (t2 - t1) * (y - v1) / (v2 - v1) ≤
              (t2 - t1) * (y2 - v1) / (v2 - v1) :=
            (div_le_div_iff (by linarith) (by linarith)).mpr
              (mul_le_mul_of_nonneg_right h5 (by linarith))
          linarith
      · rw [if_neg h3]
        have hge := interpAfter_ge rest v2 t2 y2 (List.chain'_cons.mp hv).2
          (List.chain'_cons.mp ht).2 (not_le.mp h3)
        by_cases h4 : v1 = v2
        · rw [if_pos h4]
          exact hge
        · rw [if_neg h4]
          have hlt : v1 < v2 := lt_of_le_of_ne hv12 h4
          rw [mul_div_assoc]
          have hq1 : (y - v1) / (v2 - v1) ≤ 1 :=
            (div_le_one (by linarith)).mpr (by linarith)
          have h5 := mul_le_mul_of_nonneg_left hq1
            (by linarith : (0:ℚ) ≤ t2 - t1)
          rw [mul_one] at h5
          linarith
    · rw [if_neg h2]
      have h3 : ¬ y2 ≤ v2 := fun hcon => h2 (le_trans hyy hcon)
      rw [if_neg h3]
      exact ih v2 t2 y y2 (List.chain'_cons.mp hv).2 (List.chain'_cons.mp ht).2
        (not_le.mp h2) hyy

/-- The reconstructed CDF is non-decreasing in its argument. -/
theorem interpCDF_mono (pts : List (ℚ × ℚ))
    (hv : List.Chain' (fun p q : ℚ × ℚ => p.1 ≤ q.1) pts)
    (ht : List.Chain' (fun p q : ℚ × ℚ => p.2 ≤ q.2) pts)
    (y y2 : ℚ) (hyy : y ≤ y2) : interpCDF pts y ≤ interpCDF pts y2 := by
  cases pts with
  | nil => exact le_refl 0
  | cons p rest =>
    obtain ⟨v1, t1⟩ := p
    simp only [interpCDF]
    by_cases h1 : y ≤ v1
    · rw [if_pos h1]
      by_cases h2 : y2 ≤ v1
      · rw [if_pos h2]
      · rw [if_neg h2]
        exact interpAfter_ge rest v1 t1 y2 hv ht (not_le.mp h2)
    · rw [if_neg h1]
      have h2 : ¬ y2 ≤ v1 := fun hcon => h1 (le_trans hyy hcon)
      rw [if_neg h2]
      exact interpAfter_mono rest v1 t1 y y2 hv ht (not_le.mp h1) hyy

/-- Along a strictly increasing chain, the head is below the last element. -/
theorem chain'_lt_head_getLast :
    ∀ (l : List (ℚ × ℚ)) (a b : ℚ × ℚ),
      List.Chain' (fun p q : ℚ × ℚ => p.1 < q.1) (a :: l) →
      l.getLast? = some b → a.1 < b.1 := by
  intro l
  induction l with
  | nil => intro a b _ h; exact absurd h (by simp)
  | cons c l ih =>
    intro a b hchain hlast
    have hac : a.1 < c.1 := (List.chain'_cons.mp hchain).1
    cases l with
    | nil =>
      have hb : c = b := by simpa using hlast
      exact hb ▸ hac
    | cons d l2 =>
      rw [List.getLast?_cons_cons] at hlast
      exact lt_trans hac (ih c b (List.chain'_cons.mp hchain).2 hlast)

/-- Queried at the last sample value, the interpolation tail returns the last
sample level (the quantile values being strictly increasing). -/
theorem interpAfter_getLast :
    ∀ (rest : List (ℚ × ℚ)) (v1 t1 : ℚ),
      List.Chain' (fun p q : ℚ × ℚ => p.1 < q.1) ((v1, t1) :: rest) →
      ∀ vL tL, rest.getLast? = some (vL, tL) →
        interpAfter v1 t1 rest vL = tL := by
  intro rest
  induction rest with
  | nil => intro v1 t1 _ vL tL h; exact absurd h (by simp)
  | cons p2 rest ih =>
    intro v1 t1 hchain vL tL hlast
    obtain ⟨v2, t2⟩ := p2
    have h12 : v1 < v2 := (List.chain'_cons.mp hchain).1
    cases rest with
    | nil =>
      have hb : ((v2, t2) : ℚ × ℚ) = (vL, tL) := by simpa using hlast
      injection hb with hb1 hb2
      subst hb1
      subst hb2
      simp only [interpAfter]
      rw [if_pos (le_refl v2), if_neg (ne_of_lt h12)]
      rw [mul_div_assoc, div_self (by linarith : v2 - v1 ≠ 0), mul_one]
      ring
    | cons p3 rest2 =>
      rw [List.getLast?_cons_cons] at hlast
      have hv2L : v2 < vL :=
        chain'_lt_head_getLast (p3 :: rest2) (v2, t2) (vL, tL)
          (List.chain'_cons.mp hchain).2 hlast
      simp only [interpAfter]
      rw [if_neg (not_le.mpr hv2L)]
      exact ih v2 t2 (List.chain'_cons.mp hchain).2 vL tL hlast

/-- Queried at the last sample value, the reconstructed CDF returns the last
sample level. -/
theorem interpCDF_getLast (pts : List (ℚ × ℚ))
    (hv : List.Chain' (fun p q : ℚ × ℚ => p.1 < q.1) pts) :
    ∀ vL tL, pts.getLast? = some (vL, tL) → interpCDF pts vL = tL := by
  cases pts with
  | nil => intro vL tL h; exact absurd h (by simp)
  | cons p rest =>
    intro vL tL hlast
    obtain ⟨v1, t1⟩ := p
    cases rest with
    | nil =>
      have hb : ((v1, t1) : ℚ × ℚ) = (vL, tL) := by simpa using hlast
      injection hb with hb1 hb2
      subst hb1
      subst hb2
      simp [interpCDF]
    | cons p2 rest2 =>
      rw [List.getLast?_cons_cons] at hlast
      have hvL : v1 < vL :=
        chain'_lt_head_getLast (p2 :: rest2) (v1, t1) (vL, tL) hv hlast
      simp only [interpCDF]
      rw [if_neg (not_le.mpr hvL)]
      exact interpAfter_getLast (p2 :: rest2) v1 t1 hv vL tL hlast

/-- Claim C3: for a fitted quantile family and a query point x₀,
`conditional_cdf` succeeds and stores a callable CDF keyed by x₀; the stored
CDF is non-decreasing in y, returns the first probability τ_min at the minimum
of the evaluated quantile values and the last probability τ_max at their
maximum; and the sample points it interpolates are built by the deterministic
crossing repair: the evaluated values sorted ascending, paired with the
original probabilities in ascending order. -/
theorem conditional_cdf_spec (ctx : Context) (x0 : ℚ)
    (hne : ctx.registry ≠ [])
    (hsorted : List.Chain' (fun a b : ℚ => a ≤ b) (ctx.registry.map Prod.fst))
    (hnodup : (ctx.registry.map (fun tf => tf.2 x0)).Nodup) :
    conditional_cdf ctx x0 = .ok { ctx with value := conditionalCdfValue ctx x0 } ∧
    conditionalCdfValue ctx x0 =
      .cdfs [(x0, interpCDF (cdfPoints ctx.registry x0))] ∧
    cdfPoints ctx.registry x0 =
      List.zip (sortedAsc (ctx.registry.map (fun tf => tf.2 x0)))
        (ctx.registry.map Prod.fst) ∧
    (∀ y y2, y ≤ y2 →
      interpCDF (cdfPoints ctx.registry x0) y ≤
        interpCDF (cdfPoints ctx.registry x0) y2) ∧
    (∀ v t rest, cdfPoints ctx.registry x0 = (v, t) :: rest →
      interpCDF (cdfPoints ctx.registry x0) v = t) ∧
    (∀ v t, (cdfPoints ctx.registry x0).getLast? = some (v, t) →
      interpCDF (cdfPoints ctx.registry x0) v = t) := by
  have hsv : List.Sorted (fun a b : ℚ => a ≤ b)
      (sortedAsc (ctx.registry.map (fun tf => tf.2 x0))) :=
    List.sorted_insertionSort _ _
  have hnd : (sortedAsc (ctx.registry.map (fun tf => tf.2 x0))).Nodup :=
    ((List.perm_insertionSort _ _).nodup_iff).mpr hnodup
  have hlt : List.Sorted (fun a b : ℚ => a < b)
      (sortedAsc (ctx.registry.map (fun tf => tf.2 x0))) := hsv.lt_of_le hnd
  have hpts : cdfPoints ctx.registry x0 =
      List.zip (sortedAsc (ctx.registry.map (fun tf => tf.2 x0)))
        (ctx.registry.map Prod.fst) := rfl
  have hzle := chain'_zip (sortedAsc (ctx.registry.map (fun tf => tf.2 x0)))
    (ctx.registry.map Prod.fst) hsv.chain' hsorted
  have hfst : List.Chain' (fun p q : ℚ × ℚ => p.1 ≤ q.1)
      (cdfPoints ctx.registry x0) := by
    rw [hpts]
    exact hzle.imp (fun a b h => h.1)
  have hsnd : List.Chain' (fun p q : ℚ × ℚ => p.2 ≤ q.2)
      (cdfPoints ctx.registry x0) := by
    rw [hpts]
    exact hzle.imp (fun a b h => h.2)
  have hzlt := chain'_zip (sortedAsc (ctx.registry.map (fun tf => tf.2 x0)))
    (ctx.registry.map Prod.fst) hlt.chain' (chain'_true _)
  have hfstlt : List.Chain' (fun p q : ℚ × ℚ => p.1 < q.1)
      (cdfPoints ctx.registry x0) := by
    rw [hpts]
    exact hzlt.imp (fun a b h => h.1)
  refine ⟨?_, rfl, hpts, ?_, ?_, ?_⟩
  · obtain ⟨d, reg, v⟩ := ctx
    cases reg with
    | nil => exact absurd rfl hne
    | cons e rest => rfl
  · intro y y2 hyy
    exact interpCDF_mono _ hfst hsnd y y2 hyy
  · intro v t rest heq
    rw [heq]
    simp [interpCDF]
  · intro v t hlast
    exact interpCDF_getLast _ hfstlt v t hlast

/-- Claim C3 witness: the conditional-CDF theorem applies to the concrete
two-quantile context queried at x₀ = 0. -/
theorem conditional_cdf_spec_witness :
    conditional_cdf c3Ctx 0 = .ok { c3Ctx with value := conditionalCdfValue c3Ctx 0 } :=
  (conditional_cdf_spec c3Ctx 0 (by simp [c3Ctx, c3Reg])
    (by norm_num [c3Ctx, c3Reg, List.chain'_cons])
    (by norm_num [c3Ctx, c3Reg])).1

end Regressionizer
